import Mathlib

set_option maxHeartbeats 1000000

/-!
Verification of the matrix-multiplication driver
`src/Exercises/Exercise08/Cpp/matmul.cpp`.

The program holds two OpenCL kernel sources (`mmul`, the naive kernel with one
work-item per output element, and `optimized_rowCPerWorkItemAPrivateBLocal_mmul`,
the tiled kernel with one work-item per output row, a private copy of the row of
A and a team-shared scratch copy of the current column of B), plus a host `main`
that checks the device index, runs a sequential reference multiply, then runs
each kernel COUNT times, timing and reading back C each repetition.

Matrices are flat row-major buffers of single-precision floats; here the element
values are modelled as exact rationals, and — where the exact operation order
matters — the accumulations are additionally stated over an arbitrary element
type with arbitrary `add`/`mul` operations (no algebraic laws assumed), so that
every interpretation of the operations, including IEEE single-precision
arithmetic, satisfies the proved equalities.  Buffers are total maps from flat
addresses to values; a C array write `buf[a] = v` is `store buf a v`.
-/

namespace Matmul

/-- A single array-cell write, `buf[addr] = v`, on a flat buffer. -/
def store {α : Type} (buf : Nat → α) (addr : Nat) (v : α) : Nat → α :=
  fun x => if x = addr then v else buf x

/-- The dot-product accumulation loop shared by both kernels and the reference:
`tmp = 0.0f; for (k = 0; k < N; k++) tmp += A[i*N+k] * B[k*N+j];`,
over an arbitrary element type with explicit `add`, `mul` and zero `z`
(so the left-to-right, ascending-k operation order is recorded exactly). -/
def dotAccG {α : Type} (add mul : α → α → α) (z : α) (N i j : Nat)
    (A B : Nat → α) : α :=
  (List.range N).foldl (fun tmp k => add tmp (mul (A (i*N+k)) (B (k*N+j)))) z

/-- One work-item `(i, j)` of the naive kernel `mmul`:
guard `if (i < N && j < N)`, then `C[i*N+j] = tmp` with `tmp` the dot-product
accumulation; outside the guard the work-item performs no computation and no
write, returning C unchanged. -/
def mmulWorkerG {α : Type} (add mul : α → α → α) (z : α) (N i j : Nat)
    (A B : Nat → α) (C : Nat → α) : Nat → α :=
  if i < N ∧ j < N then
    store C (i*N+j) (dotAccG add mul z N i j A B)
  else C

/-- The naive kernel launched over the whole N×N grid (the harness enqueues it
with `cl::NDRange global(N, N)`).  Work-items write pairwise-distinct cells of C
and read only the immutable A and B, so the final C is the same for every
interleaving; it is modelled as a fold of the work-items' effects. -/
def mmulLaunchG {α : Type} (add mul : α → α → α) (z : α) (N : Nat)
    (A B C : Nat → α) : Nat → α :=
  (List.range N).foldl
    (fun c i => (List.range N).foldl
      (fun c2 j => mmulWorkerG add mul z N i j A B c2) c) C

/-- The naive kernel work-item at the rational instantiation. -/
def mmulWorker (N i j : Nat) (A B C : Nat → ℚ) : Nat → ℚ :=
  mmulWorkerG (· + ·) (· * ·) 0 N i j A B C

/-- The naive kernel launch at the rational instantiation. -/
def mmulLaunch (N : Nat) (A B C : Nat → ℚ) : Nat → ℚ :=
  mmulLaunchG (· + ·) (· * ·) 0 N A B C

/-- Modelled from the spec: `seq_mat_mul_sdot` (the ReferenceMultiplier) is
declared in `matrix_lib.hpp`, which is not among the repository sources.  Per
the spec, for every output position (i, j), C[i,j] = Σ_{k=0..N-1} A[i,k] ×
B[k,j], executed sequentially in row-major output order, with the usual
left-to-right (ascending-k) dot-product accumulation. -/
def seqMatMulG {α : Type} (add mul : α → α → α) (z : α) (N : Nat)
    (A B C : Nat → α) : Nat → α :=
  (List.range N).foldl
    (fun c i => (List.range N).foldl
      (fun c2 j => store c2 (i*N+j) (dotAccG add mul z N i j A B)) c) C

/-- The reference multiplier at the rational instantiation. -/
def seq_mat_mul_sdot (N : Nat) (A B C : Nat → ℚ) : Nat → ℚ :=
  seqMatMulG (· + ·) (· * ·) 0 N A B C

/-- The declared size of the tiled kernel's private row buffer: the kernel
source declares `float Awrk[1024];` — a fixed size, independent of N. -/
def awrkSize : Nat := 1024

/-- The indices written by the tiled kernel's private staging loop
`for (k = 0; k < N; k++) Awrk[k] = A[i*N+k];`. -/
def awrkWriteIndices (N : Nat) : List Nat := List.range N

/-- The private staging loop of the tiled kernel for work-item i:
`Awrk[k] = A[i*N+k]` for k = 0..N-1, starting from the uninitialized private
buffer contents P.  This form carries the buffer as a total map and is used
for the orders the source actually defines: it agrees with the declared-size
model `loadAwrkB` below whenever N ≤ awrkSize = 1024 (theorem `loadAwrkB_eq`);
for N > awrkSize the staging loop leaves the declared array and only the
bounded model below speaks for the source. -/
def loadAwrk (N i : Nat) (A P : Nat → ℚ) : Nat → ℚ :=
  (awrkWriteIndices N).foldl (fun w k => store w k (A (i*N+k))) P

/-- The k-values visited by the strided scratch-staging loop
`for (k = iloc; k < N; k += nloc)` of the tiled kernel.  The loop body runs at
most N times whenever nloc ≥ 1 (k grows by nloc each step and the loop stops as
soon as k reaches N), so a structural fuel of N iterations reproduces the loop
exactly; OpenCL guarantees `get_local_size(0) ≥ 1`. -/
def stridedGo (N nloc : Nat) : Nat → Nat → List Nat
  | 0, _ => []
  | fuel+1, k => if k < N then k :: stridedGo N nloc fuel (k + nloc) else []

/-- The scratch indices written by the team member with local id `iloc`
(team size `nloc`) during one staging epoch. -/
def stagingIndices (iloc nloc N : Nat) : List Nat := stridedGo N nloc N iloc

/-- One member's scratch staging for column j:
`for (k = iloc; k < N; k += nloc) Bwrk[k] = B[k*N+j];`. -/
def memberStage (N nloc j iloc : Nat) (B Bwrk : Nat → ℚ) : Nat → ℚ :=
  (stagingIndices iloc nloc N).foldl (fun w k => store w k (B (k*N+j))) Bwrk

/-- The accumulation loop executed after the barrier in the tiled kernel:
`tmp = 0.0f; for (k = 0; k < N; k++) tmp += Awrk[k] * B[k*N+j];`.
The second factor is read from the global matrix B (the source line is
`tmp += Awrk[k] * B[k*N+j];`), not from the scratch buffer Bwrk. -/
def tiledTmp (N j : Nat) (Awrk B : Nat → ℚ) : ℚ :=
  (List.range N).foldl (fun tmp k => tmp + Awrk k * B (k*N+j)) 0

/-- One work-item i (local id `iloc`, work-group size `nloc`) of the tiled
kernel `optimized_rowCPerWorkItemAPrivateBLocal_mmul`: guard `if (i < N)`;
load row i of A into the private buffer; then for each column j, stage the
strided share of column j of B into the team scratch Bwrk, and — after the
barrier — accumulate `tmp` from the private row and the global B and perform
`C[i*N+j] += tmp`.  The result pair is this work-item's (C, Bwrk) after its own
writes; P is the uninitialized contents of the private buffer.  (The source
hoists the private row load before the j-loop; the loaded buffer is exactly
`loadAwrk N i A P` at every j, as written here.) -/
def tiledWorker (N nloc i iloc : Nat) (A B P : Nat → ℚ) (C Bwrk : Nat → ℚ) :
    (Nat → ℚ) × (Nat → ℚ) :=
  if i < N then
    (List.range N).foldl
      (fun s j =>
        (store s.1 (i*N+j) (s.1 (i*N+j) + tiledTmp N j (loadAwrk N i A P) B),
         memberStage N nloc j iloc B s.2))
      (C, Bwrk)
  else (C, Bwrk)

/-- The tiled kernel launched over global range N (the harness enqueues
`cl::NDRange(N)` with local size ORDER/16); the work-item with global id i has
local id `i % nloc`.  Work-items write pairwise-disjoint rows of C, read only
the immutable A and B for the C values they write, and the scratch buffer never
feeds into C (the accumulation reads global B), so the final C is the same for
every interleaving and every team's scratch contents; the C component is
modelled as a fold of the work-items' C effects, handing each work-item a fresh
scratch buffer. -/
def tiledLaunchC (N nloc : Nat) (A B P : Nat → ℚ) (C : Nat → ℚ) : Nat → ℚ :=
  (List.range N).foldl
    (fun c i => (tiledWorker N nloc i (i % nloc) A B P c (fun _ => 0)).1) C

/-- A write of the private staging loop against the declared buffer
`float Awrk[1024]`: the write lands in the array only when its index is below
`awrkSize`; a write at an index at or beyond `awrkSize` leaves the declared
array, so the array itself is unchanged by it (what such a write clobbers
outside the array is not defined by the source). -/
def storeAwrk (buf : Nat → ℚ) (k : Nat) (v : ℚ) : Nat → ℚ :=
  if k < awrkSize then store buf k v else buf

/-- A read `Awrk[k]` against the declared buffer: below `awrkSize` it reads
the array; at or beyond `awrkSize` it reads past the declared array, whose
contents the source does not determine — modelled by the unconstrained
out-of-array environment J. -/
def readAwrk (buf J : Nat → ℚ) (k : Nat) : ℚ :=
  if k < awrkSize then buf k else J k

/-- The private staging loop modelled against the declared fixed-size buffer
(`float Awrk[1024]`): writes beyond the declared size do not land in the
array. -/
def loadAwrkB (N i : Nat) (A P : Nat → ℚ) : Nat → ℚ :=
  (awrkWriteIndices N).foldl (fun w k => storeAwrk w k (A (i*N+k))) P

/-- The post-barrier accumulation loop with `Awrk[k]` read against the declared
fixed-size buffer (out-of-array contents J). -/
def tiledTmpB (N j : Nat) (Awrk J B : Nat → ℚ) : ℚ :=
  (List.range N).foldl (fun tmp k => tmp + readAwrk Awrk J k * B (k*N+j)) 0

/-- One tiled work-item with the private buffer modelled at its declared
size 1024; otherwise identical to `tiledWorker`. -/
def tiledWorkerB (N nloc i iloc : Nat) (A B P J : Nat → ℚ) (C Bwrk : Nat → ℚ) :
    (Nat → ℚ) × (Nat → ℚ) :=
  if i < N then
    (List.range N).foldl
      (fun s j =>
        (store s.1 (i*N+j)
           (s.1 (i*N+j) + tiledTmpB N j (loadAwrkB N i A P) J B),
         memberStage N nloc j iloc B s.2))
      (C, Bwrk)
  else (C, Bwrk)

/-- The tiled kernel launch with the private buffer modelled at its declared
size 1024; otherwise identical to `tiledLaunchC`. -/
def tiledLaunchCB (N nloc : Nat) (A B P J : Nat → ℚ) (C : Nat → ℚ) : Nat → ℚ :=
  (List.range N).foldl
    (fun c i => (tiledWorkerB N nloc i (i % nloc) A B P J c (fun _ => 0)).1) C

/-- Device-side contents of C across the tiled harness repetitions.  In the
harness loop, `zero_mat(N, h_C)` clears only the host buffer h_C (which the
subsequent `cl::copy(queue, d_c, ...)` read-back overwrites anyway); the device
buffer d_c is created uninitialized (contents V) just before the loop and is
never written from the host between repetitions, so each repetition's kernel
launch starts from the previous repetition's device contents. -/
def tiledDeviceC (N nloc : Nat) (A B P V : Nat → ℚ) : Nat → Nat → ℚ
  | 0 => V
  | r+1 => tiledLaunchC N nloc A B P (tiledDeviceC N nloc A B P V r)

/-- The host h_C read back by `cl::copy` after repetition r (0-indexed) of the
tiled harness loop: the device contents after r+1 kernel launches. -/
def tiledReadback (N nloc : Nat) (A B P V : Nat → ℚ) (r : Nat) : Nat → ℚ :=
  tiledDeviceC N nloc A B P V (r+1)

/-- Process exit codes: EXIT_SUCCESS and EXIT_FAILURE. -/
inductive ExitCode where
  | success : ExitCode
  | failure : ExitCode
deriving DecidableEq

/-- The observable actions of `main`, in source order. -/
inductive MainEvent where
  | invalidIndexMsg : MainEvent
  | usingDeviceMsg : MainEvent
  | seqMulRun : MainEvent
  | programBuild : MainEvent
  | naiveMulRun : MainEvent
  | tiledMulRun : MainEvent
  | exceptionMsg : MainEvent
  | cerrErrorMsg : MainEvent
deriving DecidableEq

/-- Whether an event is the invocation of a multiplication strategy. -/
def MainEvent.isMulRun : MainEvent → Bool
  | .seqMulRun => true
  | .naiveMulRun => true
  | .tiledMulRun => true
  | _ => false

/-- The phases of main's try block that follow the device-index check, in
source order: print the device name, run the sequential multiplier loop, build
the OpenCL program, run the naive kernel loop, run the tiled kernel loop. -/
def tryPhases : List MainEvent :=
  [.usingDeviceMsg, .seqMulRun, .programBuild, .naiveMulRun, .tiledMulRun]

/-- Control-flow model of `main`: if `deviceIndex >= numDevices`, main prints
the invalid-index message (to std::cout) and returns EXIT_FAILURE before any
multiplication runs.  Otherwise the try block runs; `failAt = some p` means a
`cl::Error` is raised after the first p phases, transferring control to the
catch block, which prints the Exception line to std::cout and the
`ERROR: ...` diagnostic to std::cerr and then falls through to the final
`return EXIT_SUCCESS;`. -/
def mainRun (deviceIndex numDevices : Nat) (failAt : Option Nat) :
    List MainEvent × ExitCode :=
  if numDevices ≤ deviceIndex then
    ([.invalidIndexMsg], .failure)
  else
    match failAt with
    | none => (tryPhases, .success)
    | some p => (tryPhases.take p ++ [.exceptionMsg, .cerrErrorMsg], .success)

/-- Helper for the interleaving-independence arguments: the per-row write step
of a launch, writing row i's cells `i*N+j` for j = 0..N-1, where the new value
of a cell may depend on its previous value (the tiled kernel accumulates) and
on (i, j). -/
def rowStep {α : Type} (N : Nat) (w : α → Nat → Nat → α) (c : Nat → α)
    (i : Nat) : Nat → α :=
  (List.range N).foldl (fun c2 j => store c2 (i*N+j) (w (c2 (i*N+j)) i j)) c

/-- Reading the cell just written. -/
theorem store_self {α : Type} (buf : Nat → α) (a : Nat) (v : α) :
    store buf a v a = v := by
  simp [store]

/-- Reading any other cell. -/
theorem store_other {α : Type} (buf : Nat → α) (a x : Nat) (v : α)
    (h : x ≠ a) : store buf a v x = buf x := by
  simp [store, h]

/-- Folds of pointwise-equal step functions agree. -/
theorem foldl_congr_mem {α β : Type} (l : List α) (f g : β → α → β)
    (h : ∀ b a, a ∈ l → f b a = g b a) (b : β) : l.foldl f b = l.foldl g b := by
  induction l generalizing b with
  | nil => rfl
  | cons x xs ih =>
    simp only [List.foldl_cons]
    rw [h b x (by simp)]
    exact ih (fun b2 a ha => h b2 a (List.mem_cons_of_mem _ ha)) _

/-- Frame property of a row of writes: cells whose address is not among the
written keys keep their previous value. -/
theorem row_fold_frame {α : Type} (key : Nat → Nat) (w : α → Nat → α) :
    ∀ (l : List Nat) (C : Nat → α) (x : Nat), (∀ a ∈ l, key a ≠ x) →
      (l.foldl (fun c a => store c (key a) (w (c (key a)) a)) C) x = C x := by
  intro l
  induction l with
  | nil => intro C x _; rfl
  | cons b bs ih =>
    intro C x hx
    simp only [List.foldl_cons]
    rw [ih _ x (fun a ha => hx a (List.mem_cons_of_mem _ ha))]
    exact store_other _ _ _ _ (Ne.symm (hx b (by simp)))

/-- Value of a cell after a row of writes at pairwise-distinct keys: the cell
with key j is written exactly once, by iteration j, reading the original cell
value. -/
theorem row_fold_get {α : Type} (key : Nat → Nat) (w : α → Nat → α)
    (hinj : ∀ a b, key a = key b → a = b) :
    ∀ (M : Nat) (C : Nat → α) (j : Nat), j < M →
      ((List.range M).foldl (fun c a => store c (key a) (w (c (key a)) a)) C)
          (key j) = w (C (key j)) j := by
  intro M
  induction M with
  | zero => intro C j hj; exact absurd hj (Nat.not_lt_zero j)
  | succ M ih =>
    intro C j hj
    rw [List.range_succ, List.foldl_append]
    simp only [List.foldl_cons, List.foldl_nil]
    by_cases hjM : j = M
    · subst hjM
      have hfr : ((List.range j).foldl
          (fun c a => store c (key a) (w (c (key a)) a)) C) (key j) = C (key j) := by
        apply row_fold_frame
        intro a ha h
        have h1 := List.mem_range.mp ha
        have h2 := hinj a j h
        omega
      rw [store_self, hfr]
    · have hjM2 : j < M := by omega
      rw [store_other _ _ _ _ (fun h => hjM (hinj j M h)), ih C j hjM2]

/-- The first component of a pair-state fold whose first-component step reads
only the first component. -/
theorem foldl_pair_fst {α β γ : Type} (f : β → α → β) (g : γ → α → γ) :
    ∀ (l : List α) (s : β × γ),
      (l.foldl (fun s a => (f s.1 a, g s.2 a)) s).1 = l.foldl f s.1 := by
  intro l
  induction l with
  | nil => intro s; rfl
  | cons x xs ih => intro s; simp only [List.foldl_cons]; exact ih _

/-- A left fold of additions starting from zero is the finite sum. -/
theorem foldl_add_eq_sum {M : Type} [AddCommMonoid M] (f : Nat → M) :
    ∀ N : Nat,
      (List.range N).foldl (fun t k => t + f k) 0 = ∑ k ∈ Finset.range N, f k := by
  intro N
  induction N with
  | zero => simp
  | succ N ih =>
    rw [List.range_succ, List.foldl_append, Finset.sum_range_succ, ih]
    simp

/-- Frame property of a launch: cells at addresses at or beyond row M are not
touched by the first M rows. -/
theorem launch_frame {α : Type} (N : Nat) (w : α → Nat → Nat → α) :
    ∀ (M : Nat) (C : Nat → α) (x : Nat), M * N ≤ x →
      ((List.range M).foldl (rowStep N w) C) x = C x := by
  intro M
  induction M with
  | zero => intro C x _; rfl
  | succ M ih =>
    intro C x hx
    rw [List.range_succ, List.foldl_append]
    simp only [List.foldl_cons, List.foldl_nil]
    have hMN : M * N ≤ x :=
      Nat.le_trans (Nat.mul_le_mul_right N (Nat.le_succ M)) hx
    have hrow : ∀ a ∈ List.range N, M*N+a ≠ x := by
      intro a ha h
      have haN : a < N := List.mem_range.mp ha
      have h1 : M*N+a < M*N+N := Nat.add_lt_add_left haN _
      have h2 : M*N+N = Nat.succ M * N := (Nat.succ_mul M N).symm
      exact Nat.lt_irrefl x (Nat.lt_of_lt_of_le (h ▸ (h2 ▸ h1)) hx)
    have hframe := row_fold_frame (fun a => M*N+a) (fun v a => w v M a)
      (List.range N) ((List.range M).foldl (rowStep N w) C) x hrow
    exact hframe.trans (ih C x hMN)

/-- Value of a cell after a full launch of row writes: cell `i*N+j` (i < M,
j < N) is written exactly once, by work-item i at column j, reading the
original cell value.  Together with `launch_frame` this is the disjoint-rows
partitioning argument: no two work-items ever write the same location. -/
theorem launch_get {α : Type} (N : Nat) (w : α → Nat → Nat → α) :
    ∀ (M : Nat) (C : Nat → α) (i j : Nat), i < M → j < N →
      ((List.range M).foldl (rowStep N w) C) (i*N+j) = w (C (i*N+j)) i j := by
  intro M
  induction M with
  | zero => intro C i j hi _; exact absurd hi (Nat.not_lt_zero i)
  | succ M ih =>
    intro C i j hi hj
    rw [List.range_succ, List.foldl_append]
    simp only [List.foldl_cons, List.foldl_nil]
    by_cases hiM : i = M
    · subst hiM
      have hinj : ∀ a b : Nat, i*N+a = i*N+b → a = b :=
        fun a b h => Nat.add_left_cancel h
      have hget := row_fold_get (fun a => i*N+a) (fun v a => w v i a) hinj
        N ((List.range i).foldl (rowStep N w) C) j hj
      have hD : ((List.range i).foldl (rowStep N w) C) (i*N+j) = C (i*N+j) :=
        launch_frame N w i C (i*N+j) (Nat.le_add_right _ _)
      rw [hD] at hget
      exact hget
    · have hiM2 : i < M := Nat.lt_of_le_of_ne (Nat.le_of_lt_succ hi) hiM
      have hrow : ∀ a ∈ List.range N, M*N+a ≠ i*N+j := by
        intro a ha h
        have h1 : i*N+j < i*N+N := Nat.add_lt_add_left hj _
        have h2 : i*N+N = (i+1) * N := (Nat.succ_mul i N).symm
        have h3 : (i+1) * N ≤ M * N := Nat.mul_le_mul_right N hiM2
        have h4 : i*N+j < M*N := Nat.lt_of_lt_of_le (h2 ▸ h1) h3
        have h5 : M*N ≤ M*N+a := Nat.le_add_right _ _
        exact Nat.lt_irrefl (i*N+j) (Nat.lt_of_lt_of_le h4 (h ▸ h5))
      have hframe := row_fold_frame (fun a => M*N+a) (fun v a => w v M a)
        (List.range N) ((List.range M).foldl (rowStep N w) C) (i*N+j) hrow
      exact hframe.trans (ih C i j hiM2 hj)

/-- Output cell (i, j) of the naive kernel launch: the single work-item guarded
into the grid writes it with the dot-product accumulation, independently of the
previous contents of C. -/
theorem mmulLaunchG_get {α : Type} (add mul : α → α → α) (z : α) (N : Nat)
    (A B C : Nat → α) (i j : Nat) (hi : i < N) (hj : j < N) :
    mmulLaunchG add mul z N A B C (i*N+j) = dotAccG add mul z N i j A B := by
  have houter : mmulLaunchG add mul z N A B C
      = (List.range N).foldl
          (rowStep N (fun _ i2 j2 => dotAccG add mul z N i2 j2 A B)) C := by
    show (List.range N).foldl _ C = _
    apply foldl_congr_mem
    intro c i2 hi2
    show (List.range N).foldl _ c
        = (List.range N).foldl
          (fun c2 j2 => store c2 (i2*N+j2) (dotAccG add mul z N i2 j2 A B)) c
    apply foldl_congr_mem
    intro c2 j2 hj2
    have hguard : i2 < N ∧ j2 < N := ⟨List.mem_range.mp hi2, List.mem_range.mp hj2⟩
    simp only [mmulWorkerG, if_pos hguard]
  rw [houter]
  exact launch_get N _ N C i j hi hj

/-- Output cell (i, j) of the reference multiplier: the dot-product
accumulation, independently of the previous contents of C. -/
theorem seqMatMulG_get {α : Type} (add mul : α → α → α) (z : α) (N : Nat)
    (A B C : Nat → α) (i j : Nat) (hi : i < N) (hj : j < N) :
    seqMatMulG add mul z N A B C (i*N+j) = dotAccG add mul z N i j A B :=
  launch_get N (fun _ i2 j2 => dotAccG add mul z N i2 j2 A B) N C i j hi hj

/-- The private row loaded by the tiled kernel holds row i of A at every index
below N (regardless of the uninitialized prior contents P). -/
theorem loadAwrk_get (N i k : Nat) (A P : Nat → ℚ) (hk : k < N) :
    loadAwrk N i A P k = A (i*N+k) :=
  row_fold_get (fun a => a) (fun _ a => A (i*N+a)) (fun _ _ h => h) N P k hk

/-- The tiled kernel's post-barrier accumulation over the loaded private row
equals the ascending-k accumulation of A[i*N+k] * B[k*N+j]. -/
theorem tiledTmp_loadAwrk_eq (N i j : Nat) (A B P : Nat → ℚ) :
    tiledTmp N j (loadAwrk N i A P) B
      = (List.range N).foldl (fun t k => t + A (i*N+k) * B (k*N+j)) 0 := by
  apply foldl_congr_mem
  intro t k hk
  rw [loadAwrk_get N i k A P (List.mem_range.mp hk)]

/-- The C component of one in-range tiled work-item is the per-row accumulation
fold, whatever the scratch contents. -/
theorem tiledWorker_fst (N nloc i iloc : Nat) (A B P C Bwrk : Nat → ℚ)
    (hi : i < N) :
    (tiledWorker N nloc i iloc A B P C Bwrk).1
      = (List.range N).foldl
          (fun c j => store c (i*N+j)
            (c (i*N+j) + tiledTmp N j (loadAwrk N i A P) B)) C := by
  simp only [tiledWorker, if_pos hi]
  exact foldl_pair_fst
    (fun c j => store c (i*N+j) (c (i*N+j) + tiledTmp N j (loadAwrk N i A P) B))
    (fun bw j => memberStage N nloc j iloc B bw) (List.range N) (C, Bwrk)

/-- Output cell (i, j) of the tiled kernel launch: the previous contents of C
plus the dot product of the loaded private row with column j of B. -/
theorem tiledLaunchC_get (N nloc : Nat) (A B P C : Nat → ℚ) (i j : Nat)
    (hi : i < N) (hj : j < N) :
    tiledLaunchC N nloc A B P C (i*N+j)
      = C (i*N+j) + tiledTmp N j (loadAwrk N i A P) B := by
  have houter : tiledLaunchC N nloc A B P C
      = (List.range N).foldl
          (rowStep N (fun v i2 j2 => v + tiledTmp N j2 (loadAwrk N i2 A P) B)) C := by
    show (List.range N).foldl _ C = _
    apply foldl_congr_mem
    intro c i2 hi2
    rw [tiledWorker_fst N nloc i2 (i2 % nloc) A B P c (fun _ => 0)
      (List.mem_range.mp hi2)]
    rfl
  rw [houter]
  exact launch_get N _ N C i j hi hj

/-- Membership in the strided staging loop's index list, provided the fuel
covers the remaining distance to N (the loop advances by nloc ≥ 1 each step). -/
theorem stridedGo_mem (N nloc : Nat) (hn : 0 < nloc) :
    ∀ (fuel s m : Nat), N ≤ s + fuel →
      (m ∈ stridedGo N nloc fuel s ↔ (∃ t, m = s + t * nloc) ∧ m < N) := by
  intro fuel
  induction fuel with
  | zero =>
    intro s m hs
    simp only [stridedGo, List.not_mem_nil, false_iff]
    rintro ⟨⟨t, rfl⟩, hlt⟩
    have h1 : s ≤ s + t * nloc := Nat.le_add_right _ _
    omega
  | succ fuel ih =>
    intro s m hs
    simp only [stridedGo]
    by_cases hsN : s < N
    · rw [if_pos hsN, List.mem_cons, ih (s + nloc) m (by omega)]
      constructor
      · rintro (rfl | ⟨⟨t, rfl⟩, hm⟩)
        · exact ⟨⟨0, by simp⟩, hsN⟩
        · exact ⟨⟨t+1, by ring⟩, hm⟩
      · rintro ⟨⟨t, rfl⟩, hm⟩
        cases t with
        | zero => left; simp
        | succ t => right; exact ⟨⟨t, by ring⟩, hm⟩
    · rw [if_neg hsN]
      simp only [List.not_mem_nil, false_iff]
      rintro ⟨⟨t, rfl⟩, hlt⟩
      have h1 : s ≤ s + t * nloc := Nat.le_add_right _ _
      omega

/-- Every element of the strided staging list is at least the starting index. -/
theorem stridedGo_lb (N nloc : Nat) :
    ∀ (fuel s m : Nat), m ∈ stridedGo N nloc fuel s → s ≤ m := by
  intro fuel
  induction fuel with
  | zero => intro s m hm; simp [stridedGo] at hm
  | succ fuel ih =>
    intro s m hm
    simp only [stridedGo] at hm
    by_cases hsN : s < N
    · rw [if_pos hsN, List.mem_cons] at hm
      rcases hm with rfl | hm
      · exact Nat.le_refl m
      · exact Nat.le_trans (Nat.le_add_right s nloc) (ih (s + nloc) m hm)
    · rw [if_neg hsN] at hm
      simp at hm

/-- The strided staging list never visits an index twice. -/
theorem stridedGo_nodup (N nloc : Nat) (hn : 0 < nloc) :
    ∀ (fuel s : Nat), (stridedGo N nloc fuel s).Nodup := by
  intro fuel
  induction fuel with
  | zero => intro s; simp [stridedGo]
  | succ fuel ih =>
    intro s
    simp only [stridedGo]
    by_cases hsN : s < N
    · rw [if_pos hsN]
      refine List.nodup_cons.mpr ⟨?_, ih (s + nloc)⟩
      intro hmem
      have h1 := stridedGo_lb N nloc fuel (s + nloc) s hmem
      omega
    · rw [if_neg hsN]
      exact List.nodup_nil

/-- A scratch index is visited by the member with local id iloc exactly when
iloc is the residue of the index modulo the team size. -/
theorem stagingIndices_mem (N nloc iloc m : Nat) (hn : 0 < nloc)
    (hiloc : iloc < nloc) :
    m ∈ stagingIndices iloc nloc N ↔ (m % nloc = iloc ∧ m < N) := by
  unfold stagingIndices
  rw [stridedGo_mem N nloc hn N iloc m (Nat.le_add_left N iloc)]
  constructor
  · rintro ⟨⟨t, rfl⟩, hm⟩
    refine ⟨?_, hm⟩
    rw [Nat.add_mul_mod_self_right]
    exact Nat.mod_eq_of_lt hiloc
  · rintro ⟨hmod, hm⟩
    refine ⟨⟨m / nloc, ?_⟩, hm⟩
    conv_lhs => rw [← Nat.mod_add_div m nloc]
    rw [hmod, Nat.mul_comm]

/-- Frame: a run of declared-buffer writes at indices other than k leaves
index k of the array unchanged. -/
theorem foldl_storeAwrk_frame (v : Nat → ℚ) :
    ∀ (l : List Nat) (P : Nat → ℚ) (k : Nat), (∀ a ∈ l, a ≠ k) →
      (l.foldl (fun w a => storeAwrk w a (v a)) P) k = P k := by
  intro l
  induction l with
  | nil => intro P k _; rfl
  | cons a as ih =>
    intro P k hk
    simp only [List.foldl_cons]
    rw [ih _ k (fun b hb => hk b (List.mem_cons_of_mem _ hb))]
    unfold storeAwrk
    by_cases ha : a < awrkSize
    · rw [if_pos ha]
      exact store_other _ _ _ _ (Ne.symm (hk a (by simp)))
    · rw [if_neg ha]

/-- An in-bounds index visited by the declared-buffer staging run holds the
staged value (the value staged at an index depends only on that index). -/
theorem foldl_storeAwrk_get (v : Nat → ℚ) :
    ∀ (l : List Nat) (P : Nat → ℚ) (k : Nat), k < awrkSize → k ∈ l →
      (l.foldl (fun w a => storeAwrk w a (v a)) P) k = v k := by
  intro l
  induction l with
  | nil => intro P k _ hk; simp at hk
  | cons a as ih =>
    intro P k hks hk
    simp only [List.foldl_cons]
    by_cases hmem : k ∈ as
    · exact ih _ k hks hmem
    · have hka : k = a := by
        rcases List.mem_cons.mp hk with h | h
        · exact h
        · exact absurd h hmem
      subst hka
      rw [foldl_storeAwrk_frame v as _ k (fun b hb hbk => hmem (hbk ▸ hb))]
      unfold storeAwrk
      rw [if_pos hks]
      exact store_self _ _ _

/-- Below the declared buffer size, the bounded staging loop holds row i
of A. -/
theorem loadAwrkB_get (N i k : Nat) (A P : Nat → ℚ) (hk : k < N)
    (hks : k < awrkSize) : loadAwrkB N i A P k = A (i*N+k) :=
  foldl_storeAwrk_get (fun a => A (i*N+a)) (awrkWriteIndices N) P k hks
    (List.mem_range.mpr hk)

/-- For orders within the declared buffer size, every staging write is
in bounds and the declared-size staging loop agrees with the total-map form. -/
theorem loadAwrkB_eq (N i : Nat) (A P : Nat → ℚ) (hN : N ≤ awrkSize) :
    loadAwrkB N i A P = loadAwrk N i A P := by
  show (awrkWriteIndices N).foldl (fun w k => storeAwrk w k (A (i*N+k))) P
      = (awrkWriteIndices N).foldl (fun w k => store w k (A (i*N+k))) P
  apply foldl_congr_mem
  intro w k hk
  unfold storeAwrk
  rw [if_pos (Nat.lt_of_lt_of_le (List.mem_range.mp hk) hN)]

/-- For orders within the declared buffer size, every accumulation read is
in bounds and the declared-size accumulation agrees with the total-map form. -/
theorem tiledTmpB_eq (N j : Nat) (Awrk J B : Nat → ℚ) (hN : N ≤ awrkSize) :
    tiledTmpB N j Awrk J B = tiledTmp N j Awrk B := by
  show (List.range N).foldl (fun tmp k => tmp + readAwrk Awrk J k * B (k*N+j)) 0
      = (List.range N).foldl (fun tmp k => tmp + Awrk k * B (k*N+j)) 0
  apply foldl_congr_mem
  intro t k hk
  unfold readAwrk
  rw [if_pos (Nat.lt_of_lt_of_le (List.mem_range.mp hk) hN)]

/-- For orders within the declared buffer size, the declared-size work-item
model agrees with the total-map work-item model. -/
theorem tiledWorkerB_eq (N nloc i iloc : Nat) (A B P J C Bwrk : Nat → ℚ)
    (hN : N ≤ awrkSize) :
    tiledWorkerB N nloc i iloc A B P J C Bwrk
      = tiledWorker N nloc i iloc A B P C Bwrk := by
  unfold tiledWorkerB tiledWorker
  by_cases hi : i < N
  · rw [if_pos hi, if_pos hi]
    apply foldl_congr_mem
    intro s j hj
    rw [tiledTmpB_eq N j (loadAwrkB N i A P) J B hN, loadAwrkB_eq N i A P hN]
  · rw [if_neg hi, if_neg hi]

/-- For orders within the declared buffer size, the declared-size launch model
agrees with the total-map launch model. -/
theorem tiledLaunchCB_eq (N nloc : Nat) (A B P J C : Nat → ℚ)
    (hN : N ≤ awrkSize) :
    tiledLaunchCB N nloc A B P J C = tiledLaunchC N nloc A B P C := by
  show (List.range N).foldl _ C = (List.range N).foldl _ C
  apply foldl_congr_mem
  intro c i hi
  rw [tiledWorkerB_eq N nloc i (i % nloc) A B P J c (fun _ => 0) hN]

/-- The C component of one in-range declared-size tiled work-item is the
per-row accumulation fold, whatever the scratch contents. -/
theorem tiledWorkerB_fst (N nloc i iloc : Nat) (A B P J C Bwrk : Nat → ℚ)
    (hi : i < N) :
    (tiledWorkerB N nloc i iloc A B P J C Bwrk).1
      = (List.range N).foldl
          (fun c j => store c (i*N+j)
            (c (i*N+j) + tiledTmpB N j (loadAwrkB N i A P) J B)) C := by
  simp only [tiledWorkerB, if_pos hi]
  exact foldl_pair_fst
    (fun c j => store c (i*N+j)
      (c (i*N+j) + tiledTmpB N j (loadAwrkB N i A P) J B))
    (fun bw j => memberStage N nloc j iloc B bw) (List.range N) (C, Bwrk)

/-- Output cell (i, j) of the declared-size tiled kernel launch. -/
theorem tiledLaunchCB_get (N nloc : Nat) (A B P J C : Nat → ℚ) (i j : Nat)
    (hi : i < N) (hj : j < N) :
    tiledLaunchCB N nloc A B P J C (i*N+j)
      = C (i*N+j) + tiledTmpB N j (loadAwrkB N i A P) J B := by
  have houter : tiledLaunchCB N nloc A B P J C
      = (List.range N).foldl
          (rowStep N (fun v i2 j2 => v + tiledTmpB N j2 (loadAwrkB N i2 A P) J B))
          C := by
    show (List.range N).foldl _ C = _
    apply foldl_congr_mem
    intro c i2 hi2
    rw [tiledWorkerB_fst N nloc i2 (i2 % nloc) A B P J c (fun _ => 0)
      (List.mem_range.mp hi2)]
    rfl
  rw [houter]
  exact launch_get N _ N C i j hi hj

/-- C1 (counterexample): the for-every-N claim fails at N = 1025, one past the
declared private buffer size.  There the staging loop writes `Awrk[1024]` —
outside `float Awrk[1024]` — and the accumulation loop reads `Awrk[1024]`, so
the source leaves the value read unspecified; under the out-of-array contents
J = 0 (one resolution of that unspecified read), with A = B = all-ones and a
zeroed C, the tiled kernel's output cell (0, 0) is 1024 while the reference
cell is 1025.  The source therefore does not guarantee that the tiled output
equals the reference at this order. -/
theorem tiled_oob_cex :
    tiledLaunchCB 1025 1 (fun _ => 1) (fun _ => 1) (fun _ => 0) (fun _ => 0)
        (fun _ => 0) (0*1025+0)
      ≠ seq_mat_mul_sdot 1025 (fun _ => 1) (fun _ => 1) (fun _ => 0)
        (0*1025+0) := by
  have htmp : tiledTmpB 1025 0
      (loadAwrkB 1025 0 (fun _ => 1) (fun _ => 0)) (fun _ => 0) (fun _ => 1)
      = 1024 := by
    have hsum : tiledTmpB 1025 0
        (loadAwrkB 1025 0 (fun _ => 1) (fun _ => 0)) (fun _ => 0) (fun _ => 1)
        = ∑ k ∈ Finset.range 1025,
            readAwrk (loadAwrkB 1025 0 (fun _ => 1) (fun _ => 0)) (fun _ => 0) k
              * (fun _ => (1:ℚ)) (k*1025+0) :=
      foldl_add_eq_sum _ 1025
    rw [hsum, show (1025:Nat) = 1024 + 1 from rfl, Finset.sum_range_succ]
    have h1024 : readAwrk (loadAwrkB (1024+1) 0 (fun _ => 1) (fun _ => 0))
        (fun _ => 0) 1024 * (fun _ => (1:ℚ)) (1024*(1024+1)+0) = 0 := by
      unfold readAwrk
      rw [if_neg (by decide)]
      norm_num
    have hterm : ∀ k ∈ Finset.range 1024,
        readAwrk (loadAwrkB (1024+1) 0 (fun _ => 1) (fun _ => 0)) (fun _ => 0) k
          * (fun _ => (1:ℚ)) (k*(1024+1)+0) = 1 := by
      intro k hk
      have hk2 : k < 1024 := Finset.mem_range.mp hk
      unfold readAwrk
      rw [if_pos (show k < awrkSize by unfold awrkSize; omega),
        loadAwrkB_get (1024+1) 0 k (fun _ => 1) (fun _ => 0) (by omega)
          (show k < awrkSize by unfold awrkSize; omega)]
      norm_num
    rw [h1024, add_zero, Finset.sum_congr rfl hterm]
    simp
  have hL : tiledLaunchCB 1025 1 (fun _ => 1) (fun _ => 1) (fun _ => 0)
      (fun _ => 0) (fun _ => 0) (0*1025+0) = 1024 := by
    rw [tiledLaunchCB_get 1025 1 (fun _ => 1) (fun _ => 1) (fun _ => 0)
      (fun _ => 0) (fun _ => 0) 0 0 (by norm_num) (by norm_num), htmp]
    norm_num
  have hR : seq_mat_mul_sdot 1025 (fun _ => 1) (fun _ => 1) (fun _ => 0)
      (0*1025+0) = 1025 := by
    have h1 := seqMatMulG_get (· + ·) (· * ·) (0:ℚ) 1025 (fun _ => 1)
      (fun _ => 1) (fun _ => 0) 0 0 (by norm_num) (by norm_num)
    have h2 : dotAccG (· + ·) (· * ·) (0:ℚ) 1025 0 0 (fun _ => 1) (fun _ => 1)
        = ∑ k ∈ Finset.range 1025,
            (fun _ => (1:ℚ)) (0*1025+k) * (fun _ => (1:ℚ)) (k*1025+0) :=
      foldl_add_eq_sum _ 1025
    show seqMatMulG (· + ·) (· * ·) 0 1025 (fun _ => 1) (fun _ => 1)
        (fun _ => 0) (0*1025+0) = 1025
    rw [h1, h2]
    simp
  rw [hL, hR]
  norm_num

/-- C1 (amended): for every matrix order 0 < N within the declared private
buffer size (N ≤ 1024 — which covers the harness's compiled-in ORDER whenever
it fits the buffer) and all inputs A and B, the output C produced by the naive
kernel `mmul` and by the tiled kernel with its declared fixed-size private
buffer (run on a freshly zeroed C per the harness's reset-then-invoke
contract, with arbitrary out-of-array contents J, which are never read at
these orders) equals the reference result C[i,j] = Σ_{k<N} A[i*N+k] * B[k*N+j]
at every element (i, j).  In this exact (rational) model of the float values
the results coincide exactly, which is a fortiori within any fixed per-element
relative tolerance. -/
theorem kernels_match_reference_bounded (N nloc i j : Nat) (A B P J : Nat → ℚ)
    (hN : N ≤ awrkSize) (_hnloc : 0 < nloc) (hi : i < N) (hj : j < N) :
    mmulLaunch N A B (fun _ => 0) (i*N+j)
        = ∑ k ∈ Finset.range N, A (i*N+k) * B (k*N+j)
    ∧ tiledLaunchCB N nloc A B P J (fun _ => 0) (i*N+j)
        = ∑ k ∈ Finset.range N, A (i*N+k) * B (k*N+j)
    ∧ seq_mat_mul_sdot N A B (fun _ => 0) (i*N+j)
        = ∑ k ∈ Finset.range N, A (i*N+k) * B (k*N+j) := by
  have hd : dotAccG (· + ·) (· * ·) (0:ℚ) N i j A B
      = ∑ k ∈ Finset.range N, A (i*N+k) * B (k*N+j) :=
    foldl_add_eq_sum (fun k => A (i*N+k) * B (k*N+j)) N
  refine ⟨?_, ?_, ?_⟩
  · exact (mmulLaunchG_get (· + ·) (· * ·) 0 N A B (fun _ => 0) i j hi hj).trans hd
  · rw [tiledLaunchCB_eq N nloc A B P J (fun _ => 0) hN]
    refine (tiledLaunchC_get N nloc A B P (fun _ => 0) i j hi hj).trans ?_
    show (0:ℚ) + tiledTmp N j (loadAwrk N i A P) B = _
    rw [zero_add, tiledTmp_loadAwrk_eq]
    exact foldl_add_eq_sum (fun k => A (i*N+k) * B (k*N+j)) N
  · exact (seqMatMulG_get (· + ·) (· * ·) 0 N A B (fun _ => 0) i j hi hj).trans hd

/-- Witness for the amended C1 at N = 1, A = [2], B = [3]. -/
theorem kernels_match_reference_bounded_witness :
    mmulLaunch 1 (fun _ => 2) (fun _ => 3) (fun _ => 0) (0*1+0)
      = ∑ k ∈ Finset.range 1, (fun _ => (2:ℚ)) (0*1+k) * (fun _ => (3:ℚ)) (k*1+0) :=
  (kernels_match_reference_bounded 1 1 0 0 (fun _ => 2) (fun _ => 3)
    (fun _ => 0) (fun _ => 0) (by decide) (by decide) (by decide) (by decide)).1

/-- C2 (code-bug evidence): in the tiled harness loop the C read back after a
repetition is not the C read back after the previous one.  With N = 1,
nloc = 1, A = B = [1] and the uninitialized device buffer starting at [0], the
read-back after repetition 0 is [1] but the read-back after repetition 1 is
[2]: only the host copy of C is re-zeroed between repetitions (the device
buffer is never rewritten) and the tiled kernel accumulates with
`C[i*N+j] += tmp`, so each repetition adds the product matrix again, contrary
to the documented reset-then-overwrite behaviour the validation step expects. -/
theorem tiled_harness_readback_grows :
    tiledReadback 1 1 (fun _ => 1) (fun _ => 1) (fun _ => 0) (fun _ => 0) 0 0 = 1
    ∧ tiledReadback 1 1 (fun _ => 1) (fun _ => 1) (fun _ => 0) (fun _ => 0) 1 0 = 2 := by
  have htmp : tiledTmp 1 0 (loadAwrk 1 0 (fun _ => 1) (fun _ => 0)) (fun _ => 1)
      = 1 := by
    rw [tiledTmp_loadAwrk_eq]
    simp [List.range_succ]
  have hr0 : tiledReadback 1 1 (fun _ => 1) (fun _ => 1) (fun _ => 0)
      (fun _ => 0) 0 0 = 1 := by
    show tiledLaunchC 1 1 (fun _ => 1) (fun _ => 1) (fun _ => 0)
        (fun _ => 0) (0*1+0) = 1
    rw [tiledLaunchC_get 1 1 _ _ _ _ 0 0 (by norm_num) (by norm_num), htmp]
    norm_num
  have hd1 : tiledDeviceC 1 1 (fun _ => 1) (fun _ => 1) (fun _ => 0)
      (fun _ => 0) 1 (0*1+0) = 1 := hr0
  have hr1 : tiledReadback 1 1 (fun _ => 1) (fun _ => 1) (fun _ => 0)
      (fun _ => 0) 1 0 = 2 := by
    show tiledLaunchC 1 1 (fun _ => 1) (fun _ => 1) (fun _ => 0)
        (tiledDeviceC 1 1 (fun _ => 1) (fun _ => 1) (fun _ => 0) (fun _ => 0) 1)
        (0*1+0) = 2
    rw [tiledLaunchC_get 1 1 _ _ _ _ 0 0 (by norm_num) (by norm_num), hd1, htmp]
    norm_num
  exact ⟨hr0, hr1⟩

/-- C3 (counterexample): with a valid device index (0 of 1) and a `cl::Error`
raised in the try block, the process prints the ERROR diagnostic to the error
stream, yet its exit status is not a failure status — the catch block falls
through to `return EXIT_SUCCESS;`. -/
theorem cl_error_exit_success_cex :
    (mainRun 0 1 (some 5)).2 ≠ ExitCode.failure
    ∧ MainEvent.cerrErrorMsg ∈ (mainRun 0 1 (some 5)).1 := by
  constructor
  · decide
  · decide

/-- C3 (amended): if a `cl::Error` is raised during the try block, the process
prints a diagnostic to the error stream but terminates with the success exit
status; the failure exit status occurs only for an invalid device index. -/
theorem cl_error_prints_but_exits_success (dI nD p : Nat) (h : dI < nD) :
    MainEvent.cerrErrorMsg ∈ (mainRun dI nD (some p)).1
    ∧ (mainRun dI nD (some p)).2 = ExitCode.success
    ∧ ∀ fa : Option Nat, (mainRun dI nD fa).2 ≠ ExitCode.failure := by
  have hn : ¬ (nD ≤ dI) := Nat.not_le.mpr h
  have hrun : mainRun dI nD (some p)
      = (tryPhases.take p ++ [MainEvent.exceptionMsg, MainEvent.cerrErrorMsg],
         ExitCode.success) := by
    unfold mainRun
    rw [if_neg hn]
  refine ⟨?_, ?_, ?_⟩
  · rw [hrun]
    exact List.mem_append_right _ (by simp)
  · rw [hrun]
  · intro fa
    unfold mainRun
    rw [if_neg hn]
    cases fa with
    | none => exact fun hc => ExitCode.noConfusion hc
    | some q => exact fun hc => ExitCode.noConfusion hc

/-- Witness for the amended C3 at deviceIndex 0, one device, error after all
phases. -/
theorem cl_error_prints_but_exits_success_witness :
    MainEvent.cerrErrorMsg ∈ (mainRun 0 1 (some 5)).1
    ∧ (mainRun 0 1 (some 5)).2 = ExitCode.success
    ∧ ∀ fa : Option Nat, (mainRun 0 1 fa).2 ≠ ExitCode.failure :=
  cl_error_prints_but_exits_success 0 1 5 (by decide)

/-- C4: for every device index at or beyond the number of available devices,
main prints the invalid-index diagnostic and returns EXIT_FAILURE without
invoking any multiplication strategy, whatever would have happened later. -/
theorem invalid_device_index_aborts (dI nD : Nat) (fa : Option Nat)
    (h : nD ≤ dI) :
    mainRun dI nD fa = ([MainEvent.invalidIndexMsg], ExitCode.failure)
    ∧ ∀ e ∈ (mainRun dI nD fa).1, e.isMulRun = false := by
  have h1 : mainRun dI nD fa = ([MainEvent.invalidIndexMsg], ExitCode.failure) := by
    unfold mainRun
    rw [if_pos h]
  refine ⟨h1, ?_⟩
  intro e he
  rw [h1] at he
  simp only [List.mem_singleton] at he
  subst he
  rfl

/-- Witness for C4 at deviceIndex 3 with 2 devices. -/
theorem invalid_device_index_aborts_witness :
    mainRun 3 2 none = ([MainEvent.invalidIndexMsg], ExitCode.failure) :=
  (invalid_device_index_aborts 3 2 none (by decide)).1

/-- C5: in every staging epoch of the tiled kernel (every column j), with all
team members in range, each scratch index k < N is visited by exactly one team
member — the one with local id k % nloc — and no member visits an index twice:
the member with local id iloc visits k iff iloc = k % nloc, there is exactly
one such member, and each member's visit list has no duplicates. -/
theorem scratch_coverage_exactly_once (N nloc k : Nat) (hn : 0 < nloc)
    (hk : k < N) :
    (∀ iloc, iloc < nloc → (k ∈ stagingIndices iloc nloc N ↔ iloc = k % nloc))
    ∧ (∃! iloc, iloc < nloc ∧ k ∈ stagingIndices iloc nloc N)
    ∧ (∀ iloc, (stagingIndices iloc nloc N).Nodup) := by
  have hmem : ∀ iloc, iloc < nloc →
      (k ∈ stagingIndices iloc nloc N ↔ iloc = k % nloc) := by
    intro iloc hiloc
    rw [stagingIndices_mem N nloc iloc k hn hiloc]
    constructor
    · rintro ⟨h1, _⟩
      exact h1.symm
    · rintro rfl
      exact ⟨rfl, hk⟩
  have hlt : k % nloc < nloc := Nat.mod_lt k hn
  refine ⟨hmem, ⟨k % nloc, ⟨hlt, (hmem _ hlt).mpr rfl⟩, ?_⟩,
    fun iloc => stridedGo_nodup N nloc hn N iloc⟩
  rintro iloc ⟨hiloc, hm⟩
  exact (hmem iloc hiloc).mp hm

/-- Witness for C5: with N = 4 and a team of 2, index 3 is visited by the
member with local id 1 = 3 % 2. -/
theorem scratch_coverage_exactly_once_witness :
    3 ∈ stagingIndices 1 2 4 :=
  ((scratch_coverage_exactly_once 4 2 3 (by decide) (by decide)).1
    1 (by decide)).mpr (by decide)

/-- C6: in the tiled kernel, the value tmp accumulated for worker i at column
j equals Σ_{k<N} PrivateRow[k] * B[k*N+j] = Σ_{k<N} A[i*N+k] * B[k*N+j], with
the B factors read from the global matrix B; consequently the work-item's C
output is the same for any two scratch-buffer contents. -/
theorem tiled_tmp_reads_global_B (N nloc i iloc j : Nat) (A B P : Nat → ℚ) :
    tiledTmp N j (loadAwrk N i A P) B
        = ∑ k ∈ Finset.range N, A (i*N+k) * B (k*N+j)
    ∧ ∀ (C Bwrk Bwrk2 : Nat → ℚ),
        (tiledWorker N nloc i iloc A B P C Bwrk).1
          = (tiledWorker N nloc i iloc A B P C Bwrk2).1 := by
  constructor
  · rw [tiledTmp_loadAwrk_eq]
    exact foldl_add_eq_sum (fun k => A (i*N+k) * B (k*N+j)) N
  · intro C Bwrk Bwrk2
    by_cases hi : i < N
    · rw [tiledWorker_fst N nloc i iloc A B P C Bwrk hi,
          tiledWorker_fst N nloc i iloc A B P C Bwrk2 hi]
    · unfold tiledWorker
      rw [if_neg hi, if_neg hi]

/-- C7: an out-of-range work-item — (i, j) outside [0,N)×[0,N) in the naive
kernel, or i ≥ N in the tiled kernel — performs no computation and no write:
it leaves C (and, for the tiled kernel, the scratch buffer) unchanged. -/
theorem out_of_range_worker_noop (N i1 j1 i2 iloc nloc : Nat)
    (A B C Bwrk P : Nat → ℚ)
    (hnaive : ¬ (i1 < N ∧ j1 < N)) (htiled : N ≤ i2) :
    mmulWorker N i1 j1 A B C = C
    ∧ tiledWorker N nloc i2 iloc A B P C Bwrk = (C, Bwrk) := by
  constructor
  · unfold mmulWorker mmulWorkerG
    rw [if_neg hnaive]
  · unfold tiledWorker
    rw [if_neg (Nat.not_lt.mpr htiled)]

/-- Witness for C7 at N = 2 with naive work-item (2, 0) and tiled work-item 3. -/
theorem out_of_range_worker_noop_witness :
    mmulWorker 2 2 0 (fun _ => 1) (fun _ => 1) (fun _ => 5) = (fun _ => 5)
    ∧ tiledWorker 2 1 3 0 (fun _ => 1) (fun _ => 1) (fun _ => 0)
        (fun _ => 5) (fun _ => 7) = (fun _ => 5, fun _ => 7) :=
  out_of_range_worker_noop 2 2 0 3 0 1 (fun _ => 1) (fun _ => 1) (fun _ => 5)
    (fun _ => 7) (fun _ => 0) (by decide) (by decide)

/-- C8 (counterexample): the private buffer is declared `float Awrk[1024]`, a
fixed size, not N; for order N = 1025 the staging loop writes index 1024,
which is not below the buffer size. -/
theorem awrk_bounds_cex :
    1024 ∈ awrkWriteIndices 1025 ∧ ¬ (1024 < awrkSize) := by
  constructor
  · exact List.mem_range.mpr (by norm_num)
  · decide

/-- C8 (amended): the private row buffer has the fixed size 1024, and the N
writes of the staging loop all land within its bounds exactly when N ≤ 1024
(which covers the harness's compiled-in ORDER whenever it is at most 1024). -/
theorem awrk_writes_in_bounds_iff (N : Nat) :
    (∀ k ∈ awrkWriteIndices N, k < awrkSize) ↔ N ≤ awrkSize := by
  unfold awrkWriteIndices awrkSize
  constructor
  · intro h
    by_contra hN
    push_neg at hN
    exact absurd (h 1024 (List.mem_range.mpr hN)) (by decide)
  · intro hN k hk
    exact Nat.lt_of_lt_of_le (List.mem_range.mp hk) hN

/-- C9: at every in-range element (i, j), the naive kernel launch and the
reference multiplier produce the same output for EVERY interpretation of the
element type and of its add/mul/zero operations — in particular for IEEE
single-precision arithmetic — because both accumulate with the identical
left-to-right ascending-k operation sequence.  This is the bit-for-bit
equality claim: no algebraic law of add or mul is assumed. -/
theorem naive_kernel_bitwise_eq_reference {α : Type} (add mul : α → α → α)
    (z : α) (N i j : Nat) (A B C C2 : Nat → α) (hi : i < N) (hj : j < N) :
    mmulLaunchG add mul z N A B C (i*N+j)
      = seqMatMulG add mul z N A B C2 (i*N+j) :=
  (mmulLaunchG_get add mul z N A B C i j hi hj).trans
    (seqMatMulG_get add mul z N A B C2 i j hi hj).symm

/-- Witness for C9 over the integers at N = 1. -/
theorem naive_kernel_bitwise_eq_reference_witness :
    mmulLaunchG (· + ·) (· * ·) (0:Int) 1 (fun _ => 2) (fun _ => 3)
        (fun _ => 5) (0*1+0)
      = seqMatMulG (· + ·) (· * ·) (0:Int) 1 (fun _ => 2) (fun _ => 3)
        (fun _ => 7) (0*1+0) :=
  naive_kernel_bitwise_eq_reference (· + ·) (· * ·) 0 1 0 0 (fun _ => 2)
    (fun _ => 3) (fun _ => 5) (fun _ => 7) (by decide) (by decide)

/-- C10: the tiled kernel accumulates where the naive kernel overwrites: for
every prior contents V of C, an in-range tiled work-item leaves
C[i*N+j] = V[i*N+j] + tmp(i, j), whereas the naive work-item's output cell is
the same for any two prior contents of C. -/
theorem tiled_accumulates_naive_overwrites (N nloc i iloc j : Nat)
    (A B P V Bwrk : Nat → ℚ) (hi : i < N) (hj : j < N) :
    (tiledWorker N nloc i iloc A B P V Bwrk).1 (i*N+j)
        = V (i*N+j) + tiledTmp N j (loadAwrk N i A P) B
    ∧ ∀ (W W2 : Nat → ℚ),
        mmulWorker N i j A B W (i*N+j) = mmulWorker N i j A B W2 (i*N+j) := by
  constructor
  · rw [tiledWorker_fst N nloc i iloc A B P V Bwrk hi]
    exact row_fold_get (fun a => i*N+a)
      (fun v a => v + tiledTmp N a (loadAwrk N i A P) B)
      (fun a b h => Nat.add_left_cancel h) N V j hj
  · intro W W2
    unfold mmulWorker mmulWorkerG
    rw [if_pos ⟨hi, hj⟩, if_pos ⟨hi, hj⟩, store_self, store_self]

/-- Witness for C10 at N = 1 with prior cell value 5. -/
theorem tiled_accumulates_naive_overwrites_witness :
    (tiledWorker 1 1 0 0 (fun _ => 2) (fun _ => 3) (fun _ => 0)
        (fun _ => 5) (fun _ => 0)).1 (0*1+0)
      = (fun _ => (5:ℚ)) (0*1+0)
        + tiledTmp 1 0 (loadAwrk 1 0 (fun _ => 2) (fun _ => 0)) (fun _ => 3) :=
  (tiled_accumulates_naive_overwrites 1 1 0 0 0 (fun _ => 2) (fun _ => 3)
    (fun _ => 0) (fun _ => 5) (fun _ => 0) (by decide) (by decide)).1

end Matmul
